import Mathlib

/-!
Verification of the vcpu core against its natural-language specification.

The development shallowly embeds the fragmented-memory component
(`src/memory/composite.rs`), the memory-mapped I/O component
(`src/memory/io.rs`) and the processor state machine (`src/processor.rs`).
Machine integers (`u32`) are represented by `Nat`; where the source relies
on two's-complement wraparound (`wrapping_add`) or on the `as u32` cast the
embedding takes the value modulo `2 ^ 32` explicitly, where the source uses
`checked_add` the embedding returns an `Option`, and where the source can
panic the embedding returns a distinguished `panic` outcome.  Plain `u32`
addition in the source (which asserts absence of overflow) is represented by
exact `Nat` addition.

Code of the repository that is not present under `src/` (the `Storage`
trait implementation for flat byte buffers from `lib.rs`, the machine
constants, and the decode/execute unit `processor/logic.rs`) is modelled
from the specification; each such definition carries a doc comment starting
with `Modelled from the spec:`.
-/

/-! ## Composite memory (`src/memory/composite.rs`) -/

/-- Error type for `CompositeMemory::mount` (composite.rs, `MountError`). -/
inductive MountError where
  /-- The mount operation would have resulted in intersecting fragments. -/
  | FragmentIntersection
  /-- Another fragment has already been mounted with the same key. -/
  | KeyAlreadyExists
deriving DecidableEq, Repr

/-- Modelled from the spec: a fragment is a boxed `Storage` object; the flat
byte-buffer implementation of the Storage Contract (`lib.rs`, absent from
`src/`) backs every fragment here, so a fragment is its list of bytes. -/
abbrev Frag := List Nat

/-- `CompositeMemory` (composite.rs): a list of fragments, each mounted at a
base address, plus a registry mapping string keys to fragment positions.
The `HashMap` registry is represented as an association list; `mount`
guarantees key uniqueness, so the two agree observably. -/
structure CompositeMemory where
  fragments : List (Nat × Frag)
  registry : List (String × Nat)
deriving DecidableEq, Repr

/-- `CompositeMemory::new` (composite.rs). -/
def CompositeMemory.new : CompositeMemory := ⟨[], []⟩

/-- Largest `u32` value, `u32::max_value()`. -/
def u32Max : Nat := 4294967295

/-- `u32::checked_add`: `none` exactly when the mathematical sum exceeds
`u32::max_value()`. -/
def checkedAdd (a b : Nat) : Option Nat :=
  if a + b ≤ u32Max then some (a + b) else none

/-- `HashMap::contains_key` on the association-list registry. -/
def containsKey (registry : List (String × Nat)) (key : String) : Bool :=
  registry.any (fun p => p.1 == key)

/-- `CompositeMemory::find_mount_index` (composite.rs lines 138-152),
written as a structural recursion returning the index relative to the list
scanned so far; `.map (· + 1)` plays the role of the running index of the
source's `enumerate` loop. -/
def find_mount_index : List (Nat × Frag) → Nat → Nat → Except MountError Nat
  | [], _, _ => Except.ok 0
  | (frag_addr, frag) :: rest, address, upper_bound =>
    let frag_upper := frag_addr + frag.length
    if frag_addr ≥ address then
      if upper_bound > frag_addr then Except.error MountError.FragmentIntersection
      else Except.ok 0
    else if frag_upper > address then Except.error MountError.FragmentIntersection
    else (find_mount_index rest address upper_bound).map (· + 1)

/-- `Vec::insert(index, x)`: the list with `x` placed at position `index`. -/
def listInsert (l : List (Nat × Frag)) (index : Nat) (x : Nat × Frag) : List (Nat × Frag) :=
  l.take index ++ x :: l.drop index

/-- Outcome of `CompositeMemory::mount`: either a Rust panic (the
`checked_add(..).expect(..)` on composite.rs line 108), a `MountError`, or
success. -/
inductive MountResult where
  | panic
  | err (e : MountError)
  | ok
deriving DecidableEq, Repr

/-- `CompositeMemory::mount` (composite.rs lines 103-115).  The returned
`CompositeMemory` is the state of `self` after the call; on the error and
panic paths the source returns before any mutation, so the input state is
returned unchanged. -/
def CompositeMemory.mount (m : CompositeMemory) (address : Nat) (key : String)
    (fragment : Frag) : MountResult × CompositeMemory :=
  if containsKey m.registry key then (MountResult.err MountError.KeyAlreadyExists, m)
  else
    match checkedAdd address fragment.length with
    | none => (MountResult.panic, m)
    | some upper_bound =>
      match find_mount_index m.fragments address upper_bound with
      | Except.error e => (MountResult.err e, m)
      | Except.ok index =>
        (MountResult.ok,
         ⟨listInsert m.fragments index (address, fragment), (key, index) :: m.registry⟩)

/-- `HashMap::remove` on the association-list registry: removes the entry
for `key` and returns its value together with the remaining registry. -/
def registryRemove : List (String × Nat) → String → Option (Nat × List (String × Nat))
  | [], _ => none
  | (k, i) :: rest, key =>
    if k == key then some (i, rest)
    else (registryRemove rest key).map (fun p => (p.1, (k, i) :: p.2))

/-- Outcome of `CompositeMemory::unmount`: either a Rust panic (the
out-of-bounds `Vec::remove` in `self.fragments.remove(i)`), or the
optionally removed fragment together with the new state. -/
inductive UnmountResult where
  | panic
  | ok (fragment : Option Frag) (m : CompositeMemory)
deriving DecidableEq, Repr

/-- `CompositeMemory::unmount` (composite.rs lines 134-136):
`self.registry.remove(key).map(|i| self.fragments.remove(i).1)`.
`Vec::remove(i)` panics when `i` is out of bounds and otherwise removes and
returns the element at `i`, shifting later elements down. -/
def CompositeMemory.unmount (m : CompositeMemory) (key : String) : UnmountResult :=
  match registryRemove m.registry key with
  | none => UnmountResult.ok none m
  | some (i, registry) =>
    if h : i < m.fragments.length then
      UnmountResult.ok (some (m.fragments.get ⟨i, h⟩).2)
        ⟨m.fragments.eraseIdx i, registry⟩
    else UnmountResult.panic

/-- Chains a list of `(address, key, fragment)` mount operations, requiring
each `mount` to succeed. -/
def mount_all : List (Nat × String × Frag) → CompositeMemory → Option CompositeMemory
  | [], m => some m
  | (address, key, fragment) :: rest, m =>
    match CompositeMemory.mount m address key fragment with
    | (MountResult.ok, m') => mount_all rest m'
    | _ => none

/-- A composite built by a sequence of successful mounts starting from
`CompositeMemory::new`. -/
def mountedFrom (ops : List (Nat × String × Frag)) (m : CompositeMemory) : Prop :=
  mount_all ops CompositeMemory.new = some m

/-! ### Address resolution (`get_index`, `get_fragment`, `Storage` impl) -/

/-- The core loop of `slice::binary_search_by_key` from the Rust standard
library, searching `keys` for `target` on the half-open index range
`[left, right)`.  `fuel` bounds the number of iterations; every call keeps
`right - left ≤ fuel`, which makes the structural recursion coincide with
the source's `while` loop. `Sum.inl i` is `Ok(i)` (found at `i`),
`Sum.inr i` is `Err(i)` (insertion point `i`). -/
def binarySearchGo (keys : List Nat) (target : Nat) : Nat → Nat → Nat → Nat ⊕ Nat
  | 0, left, _ => Sum.inr left
  | fuel + 1, left, right =>
    if left < right then
      let size := right - left
      let mid := left + size / 2
      let k := keys.getD mid 0
      if k < target then binarySearchGo keys target fuel (mid + 1) right
      else if target < k then binarySearchGo keys target fuel left mid
      else Sum.inl mid
    else Sum.inr left

/-- `self.fragments.binary_search_by_key(&address, |e| e.0)`. -/
def binarySearchByBase (fragments : List (Nat × Frag)) (address : Nat) : Nat ⊕ Nat :=
  binarySearchGo (fragments.map Prod.fst) address fragments.length 0 fragments.length

/-- `CompositeMemory::get_index` (composite.rs lines 154-159). -/
def CompositeMemory.get_index (m : CompositeMemory) (address : Nat) : Option Nat :=
  match binarySearchByBase m.fragments address with
  | Sum.inl i => some i
  | Sum.inr i => if i > 0 then some (i - 1) else none

/-- Modelled from the spec: `Storage::check_range` of the flat byte-buffer
implementation (`lib.rs`, absent from `src/`): true iff
`[address, address+length)` lies entirely within bounds; on `Nat` the
overflow-is-out-of-range provision is automatic. -/
def memCheckRange (fragment : Frag) (address length : Nat) : Bool :=
  address + length ≤ fragment.length

/-- Modelled from the spec: `Storage::borrow_slice` of the flat byte-buffer
implementation (`lib.rs`, absent from `src/`): the requested window, or an
out-of-range error. -/
def memBorrowSlice (fragment : Frag) (address length : Nat) : Except Unit (List Nat) :=
  if address + length ≤ fragment.length then
    Except.ok ((fragment.drop address).take length)
  else Except.error ()

/-- `CompositeMemory::get_fragment` (composite.rs lines 161-169), including
the (unreachable) `index >= self.fragments.len()` guard of the source. -/
def CompositeMemory.get_fragment (m : CompositeMemory) (address : Nat) :
    Option (Frag × Nat) :=
  match m.get_index address with
  | none => none
  | some index =>
    if index ≥ m.fragments.length then none
    else
      let fa := m.fragments.getD index (0, [])
      some (fa.2, address - fa.1)

/-- `Storage::length` for `CompositeMemory` (composite.rs lines 183-188). -/
def CompositeMemory.length (m : CompositeMemory) : Nat :=
  if m.fragments.length > 0 then
    let fa := m.fragments.getD (m.fragments.length - 1) (0, [])
    fa.1 + fa.2.length
  else 0

/-- `Storage::check_range` for `CompositeMemory` (composite.rs lines 190-196). -/
def CompositeMemory.check_range (m : CompositeMemory) (address length : Nat) : Bool :=
  match m.get_fragment address with
  | some (fragment, local_address) => memCheckRange fragment local_address length
  | none => false

/-- `Storage::borrow_slice` for `CompositeMemory` (composite.rs lines 198-201). -/
def CompositeMemory.borrow_slice (m : CompositeMemory) (address length : Nat) :
    Except Unit (List Nat) :=
  match m.get_fragment address with
  | some (fragment, local_address) => memBorrowSlice fragment local_address length
  | none => Except.error ()

/-! ## C1 / C2: mount and unmount registry behaviour -/

/-- **C1** (code bug).  The specification requires that after removing a
fragment every registry position recorded for a later fragment is
decremented, so that a later `unmount` of any remaining key returns that
key's own fragment.  The source's `unmount`
(`self.registry.remove(key).map(|i| self.fragments.remove(i).1)`) never
re-indexes the registry.  Concretely: mount the one-byte fragments `[7]`,
`[8]`, `[9]` under keys `"f0"`, `"f1"`, `"f2"` at addresses 0, 1, 2;
unmount `"f0"`; then unmounting `"f1"` removes and returns the fragment
`[9]` that was mounted under `"f2"`, not `"f1"`'s own fragment `[8]`. -/
theorem c1_unmount_registry_bug :
    mount_all [(0, "f0", [7]), (1, "f1", [8]), (2, "f2", [9])] CompositeMemory.new
      = some ⟨[(0, [7]), (1, [8]), (2, [9])], [("f2", 2), ("f1", 1), ("f0", 0)]⟩
    ∧ (CompositeMemory.mk [(0, [7]), (1, [8]), (2, [9])]
        [("f2", 2), ("f1", 1), ("f0", 0)]).unmount "f0"
      = UnmountResult.ok (some [7])
          ⟨[(1, [8]), (2, [9])], [("f2", 2), ("f1", 1)]⟩
    ∧ (CompositeMemory.mk [(1, [8]), (2, [9])] [("f2", 2), ("f1", 1)]).unmount "f1"
      = UnmountResult.ok (some [9]) ⟨[(1, [8])], [("f2", 2)]⟩
    ∧ ([9] : Frag) ≠ [8] := by
  decide

/-- **C2** (counterexample to the claim as stated).  Mounting a fragment of
length 2 at address `u32::max_value()` on an empty composite makes
`address + fragment.length()` overflow the 32-bit range; the source panics
(`checked_add(..).expect(..)`, composite.rs line 108) instead of returning
`FragmentIntersection`. -/
theorem c2_overflow_counterexample :
    CompositeMemory.mount CompositeMemory.new 4294967295 "k" [0, 0]
      = (MountResult.panic, CompositeMemory.new)
    ∧ MountResult.panic ≠ MountResult.err MountError.FragmentIntersection := by
  decide

/-- **C2** (amended).  For every composite and fragment, calling `mount`
with a not-yet-registered key and an address such that
`address + fragment.length()` overflows the 32-bit addressable range
panics — the behaviour documented in `mount`'s `# Panics` section — rather
than returning `FragmentIntersection`; the panic occurs before any
mutation, so the composite is left unchanged. -/
theorem c2_overflow_panics (m : CompositeMemory) (address : Nat) (key : String)
    (fragment : Frag)
    (hkey : containsKey m.registry key = false)
    (hoverflow : u32Max < address + fragment.length) :
    CompositeMemory.mount m address key fragment = (MountResult.panic, m) := by
  have hadd : checkedAdd address fragment.length = none := by
    unfold checkedAdd
    rw [if_neg]
    omega
  unfold CompositeMemory.mount
  rw [hkey, hadd]
  simp

theorem c2_overflow_panics_witness :
    CompositeMemory.mount ⟨[(0, [5])], [("f0", 0)]⟩ 4294967294 "dev" [1, 2, 3]
      = (MountResult.panic, ⟨[(0, [5])], [("f0", 0)]⟩) :=
  c2_overflow_panics _ 4294967294 "dev" [1, 2, 3] (by decide) (by decide)

/-! ### The fragment-list invariant established by `mount` -/

/-- The fragment list is sorted by base address with pairwise disjoint
ranges: every earlier fragment ends at or before every later fragment's
base. -/
abbrev FragsOk (fragments : List (Nat × Frag)) : Prop :=
  List.Pairwise (fun p q => p.1 + p.2.length ≤ q.1) fragments

theorem find_mount_index_error_shape (fragments : List (Nat × Frag))
    (address upper_bound : Nat) (e : MountError)
    (h : find_mount_index fragments address upper_bound = Except.error e) :
    e = MountError.FragmentIntersection := by
  induction fragments with
  | nil => simp [find_mount_index] at h
  | cons hd tl ih =>
    obtain ⟨b, f⟩ := hd
    simp only [find_mount_index] at h
    split at h
    · split at h
      · exact (Except.error.injEq _ _).mp h |>.symm
      · simp at h
    · split at h
      · exact (Except.error.injEq _ _).mp h |>.symm
      · cases hf : find_mount_index tl address upper_bound with
        | error e' =>
          rw [hf] at h
          simp only [Except.map] at h
          injection h with h
          subst h
          exact ih hf
        | ok j => rw [hf] at h; simp [Except.map] at h

theorem find_mount_index_ok_split (fragments : List (Nat × Frag))
    (address upper_bound : Nat) (hwf : FragsOk fragments) (i : Nat)
    (h : find_mount_index fragments address upper_bound = Except.ok i) :
    i ≤ fragments.length
    ∧ (∀ pq ∈ fragments.take i, pq.1 + pq.2.length ≤ address)
    ∧ (∀ pq ∈ fragments.drop i, upper_bound ≤ pq.1) := by
  induction fragments generalizing i with
  | nil =>
    simp [find_mount_index] at h
    simp [← h]
  | cons hd tl ih =>
    obtain ⟨b, f⟩ := hd
    obtain ⟨hwf1, hwf2⟩ := List.pairwise_cons.mp hwf
    simp only [find_mount_index] at h
    split at h
    · split at h
      · simp at h
      · rename_i hba hub
        have hi : i = 0 := by simpa using h.symm
        subst hi
        refine ⟨Nat.zero_le _, by simp, ?_⟩
        intro pq hpq
        simp only [List.drop_zero, List.mem_cons] at hpq
        rcases hpq with rfl | hpq
        · dsimp only
          omega
        · have := hwf1 pq hpq
          simp only at this
          omega
    · split at h
      · simp at h
      · rename_i hba hfu
        cases hf : find_mount_index tl address upper_bound with
        | error e' => rw [hf] at h; simp [Except.map] at h
        | ok j =>
          rw [hf] at h
          simp only [Except.map, Except.ok.injEq] at h
          obtain ⟨hlen, htake, hdrop⟩ := ih hwf2 j hf
          subst h
          refine ⟨by simpa using hlen, ?_, ?_⟩
          · intro pq hpq
            simp only [List.take_succ_cons, List.mem_cons] at hpq
            rcases hpq with rfl | hpq
            · dsimp only
              omega
            · exact htake pq hpq
          · intro pq hpq
            simp only [List.drop_succ_cons] at hpq
            exact hdrop pq hpq

theorem checkedAdd_some (a b c : Nat) (h : checkedAdd a b = some c) :
    c = a + b ∧ a + b ≤ u32Max := by
  unfold checkedAdd at h
  split at h
  · exact ⟨((Option.some.injEq _ _).mp h).symm, by assumption⟩
  · simp at h

theorem mount_ok_state (m : CompositeMemory) (address : Nat) (key : String)
    (fragment : Frag) (m' : CompositeMemory)
    (h : CompositeMemory.mount m address key fragment = (MountResult.ok, m')) :
    ∃ index, checkedAdd address fragment.length = some (address + fragment.length)
      ∧ find_mount_index m.fragments address (address + fragment.length)
          = Except.ok index
      ∧ m' = ⟨listInsert m.fragments index (address, fragment),
              (key, index) :: m.registry⟩ := by
  unfold CompositeMemory.mount at h
  split at h
  · simp at h
  · split at h
    · simp at h
    · rename_i ub hadd
      split at h
      · simp at h
      · rename_i index hf
        obtain ⟨rfl, -⟩ := checkedAdd_some _ _ _ hadd
        simp only [Prod.mk.injEq] at h
        exact ⟨index, hadd, hf, h.2.symm⟩

theorem mount_ok_fragsOk (m : CompositeMemory) (address : Nat) (key : String)
    (fragment : Frag) (m' : CompositeMemory)
    (h : CompositeMemory.mount m address key fragment = (MountResult.ok, m'))
    (hwf : FragsOk m.fragments) : FragsOk m'.fragments := by
  obtain ⟨index, -, hf, rfl⟩ := mount_ok_state m address key fragment m' h
  obtain ⟨hlen, htake, hdrop⟩ := find_mount_index_ok_split _ _ _ hwf _ hf
  have hsplit : m.fragments = m.fragments.take index ++ m.fragments.drop index :=
    (List.take_append_drop index m.fragments).symm
  obtain ⟨hto, hdo, hcross⟩ := List.pairwise_append.mp (hsplit ▸ hwf)
  show FragsOk (listInsert m.fragments index (address, fragment))
  unfold listInsert
  refine List.pairwise_append.mpr ⟨hto, ?_, ?_⟩
  · refine List.pairwise_cons.mpr ⟨fun z hz => ?_, hdo⟩
    have := hdrop z hz
    simpa using this
  · intro y hy z hz
    rcases List.mem_cons.mp hz with rfl | hz
    · have := htake y hy
      simpa using this
    · exact hcross y hy z hz

theorem mount_ok_mem (m : CompositeMemory) (address : Nat) (key : String)
    (fragment : Frag) (m' : CompositeMemory)
    (h : CompositeMemory.mount m address key fragment = (MountResult.ok, m')) :
    ∀ pq ∈ m'.fragments, pq = (address, fragment) ∨ pq ∈ m.fragments := by
  obtain ⟨index, -, -, rfl⟩ := mount_ok_state m address key fragment m' h
  intro pq hpq
  simp only [listInsert, List.mem_append, List.mem_cons] at hpq
  rcases hpq with hpq | hpq | hpq
  · exact Or.inr (List.take_subset _ _ hpq)
  · exact Or.inl hpq
  · exact Or.inr (List.drop_subset _ _ hpq)

theorem mount_all_fragsOk (ops : List (Nat × String × Frag)) :
    ∀ m0 m, mount_all ops m0 = some m → FragsOk m0.fragments →
      FragsOk m.fragments := by
  induction ops with
  | nil => intro m0 m h hwf; simp only [mount_all, Option.some.injEq] at h; exact h ▸ hwf
  | cons op rest ih =>
    intro m0 m h hwf
    obtain ⟨address, key, fragment⟩ := op
    simp only [mount_all] at h
    split at h
    · rename_i m1 hm
      exact ih m1 m h (mount_ok_fragsOk m0 address key fragment m1 hm hwf)
    · simp at h

theorem mount_all_mem (ops : List (Nat × String × Frag)) :
    ∀ m0 m, mount_all ops m0 = some m → ∀ pq ∈ m.fragments,
      pq ∈ m0.fragments ∨ ∃ op ∈ ops, pq = (op.1, op.2.2) := by
  induction ops with
  | nil =>
    intro m0 m h pq hpq
    simp only [mount_all, Option.some.injEq] at h
    exact Or.inl (h ▸ hpq)
  | cons op rest ih =>
    intro m0 m h pq hpq
    obtain ⟨address, key, fragment⟩ := op
    simp only [mount_all] at h
    split at h
    · rename_i m1 hm
      rcases ih m1 m h pq hpq with h1 | ⟨op', hop', rfl⟩
      · rcases mount_ok_mem m0 address key fragment m1 hm pq h1 with rfl | h2
        · exact Or.inr ⟨(address, key, fragment), List.mem_cons_self _ _, rfl⟩
        · exact Or.inl h2
      · exact Or.inr ⟨op', List.mem_cons_of_mem _ hop', rfl⟩
    · simp at h

theorem mountedFrom_fragsOk (ops : List (Nat × String × Frag)) (m : CompositeMemory)
    (h : mountedFrom ops m) : FragsOk m.fragments :=
  mount_all_fragsOk ops CompositeMemory.new m h (by simp [CompositeMemory.new])

/-! ## C4: mount failure modes -/

/-- **C4**.  (1) Mounting with an already-registered key always fails with
`KeyAlreadyExists`, whatever the address and fragment — the registry check
precedes the overflow check and any intersection check.  (2) On a
well-formed composite (the `FragsOk` invariant, which `mount` establishes —
see `mount_all_fragsOk`), mounting a fresh key whose fragment range
overlaps any existing fragment fails with `FragmentIntersection`.
(3) Every `mount` failure (error or panic) returns the fragment list and
the key registry exactly unchanged. -/
theorem c4_mount_errors (m : CompositeMemory) (address : Nat) (key : String)
    (fragment : Frag) :
    (containsKey m.registry key = true →
      CompositeMemory.mount m address key fragment
        = (MountResult.err MountError.KeyAlreadyExists, m))
    ∧ (FragsOk m.fragments →
       containsKey m.registry key = false →
       address + fragment.length ≤ u32Max →
       (∃ pq ∈ m.fragments,
          address < pq.1 + pq.2.length ∧ pq.1 < address + fragment.length) →
       CompositeMemory.mount m address key fragment
         = (MountResult.err MountError.FragmentIntersection, m))
    ∧ (∀ r m', CompositeMemory.mount m address key fragment = (r, m') →
       r ≠ MountResult.ok → m' = m) := by
  refine ⟨fun hkey => ?_, fun hwf hkey hle hov => ?_, fun r m' h hne => ?_⟩
  · unfold CompositeMemory.mount
    rw [hkey]
    simp
  · have hadd : checkedAdd address fragment.length
        = some (address + fragment.length) := by
      unfold checkedAdd
      rw [if_pos hle]
    unfold CompositeMemory.mount
    rw [hkey, hadd]
    simp only [Bool.false_eq_true, if_false]
    cases hf : find_mount_index m.fragments address (address + fragment.length) with
    | error e =>
      rw [find_mount_index_error_shape _ _ _ _ hf]
    | ok i =>
      exfalso
      obtain ⟨pq, hpq, hov1, hov2⟩ := hov
      obtain ⟨-, htake, hdrop⟩ := find_mount_index_ok_split _ _ _ hwf _ hf
      rw [← List.take_append_drop i m.fragments, List.mem_append] at hpq
      rcases hpq with hpq | hpq
      · have := htake pq hpq
        omega
      · have := hdrop pq hpq
        omega
  · unfold CompositeMemory.mount at h
    split at h
    · simpa using congrArg Prod.snd h.symm
    · split at h
      · simpa using congrArg Prod.snd h.symm
      · split at h
        · simpa using congrArg Prod.snd h.symm
        · exfalso
          exact hne (by simpa using congrArg Prod.fst h.symm)

theorem c4_mount_errors_witness :
    CompositeMemory.mount ⟨[(4, [1, 2, 3, 4])], [("dev", 0)]⟩ 9 "dev" [7]
      = (MountResult.err MountError.KeyAlreadyExists,
         ⟨[(4, [1, 2, 3, 4])], [("dev", 0)]⟩)
    ∧ CompositeMemory.mount ⟨[(4, [1, 2, 3, 4])], [("dev", 0)]⟩ 6 "ram" [7, 7]
      = (MountResult.err MountError.FragmentIntersection,
         ⟨[(4, [1, 2, 3, 4])], [("dev", 0)]⟩) := by
  constructor
  · exact (c4_mount_errors ⟨[(4, [1, 2, 3, 4])], [("dev", 0)]⟩ 9 "dev" [7]).1
      (by decide)
  · exact (c4_mount_errors ⟨[(4, [1, 2, 3, 4])], [("dev", 0)]⟩ 6 "ram" [7, 7]).2.1
      (by decide) (by decide) (by decide)
      ⟨(4, [1, 2, 3, 4]), by decide, by decide, by decide⟩

/-! ## Binary-search correctness for address resolution -/

theorem getD_lt_length {α : Type} (l : List α) (d : α) (i : Nat) (h : i < l.length) :
    l.getD i d = l.get ⟨i, h⟩ := by
  simp [List.getD_eq_getElem?_getD, List.getElem?_eq_getElem h]

/-- Postcondition of the standard-library binary search: `Ok(i)` points at a
hit, `Err(i)` is the point separating the keys below the target from the
keys above it. -/
def BSOut (keys : List Nat) (target : Nat) : Nat ⊕ Nat → Prop
  | Sum.inl i => i < keys.length ∧ keys.getD i 0 = target
  | Sum.inr i => i ≤ keys.length ∧ (∀ j, j < i → keys.getD j 0 < target)
      ∧ (∀ j, i ≤ j → j < keys.length → target < keys.getD j 0)

theorem bsGo_spec (keys : List Nat) (target : Nat)
    (hsort : ∀ i j, i < j → j < keys.length → keys.getD i 0 ≤ keys.getD j 0) :
    ∀ fuel left right, left ≤ right → right ≤ keys.length → right - left ≤ fuel →
      (∀ j, j < left → keys.getD j 0 < target) →
      (∀ j, right ≤ j → j < keys.length → target < keys.getD j 0) →
      BSOut keys target (binarySearchGo keys target fuel left right) := by
  intro fuel
  induction fuel with
  | zero =>
    intro left right hlr hrl hfuel hleft hright
    simp only [binarySearchGo, BSOut]
    exact ⟨by omega, hleft, fun j hj hjl => hright j (by omega) hjl⟩
  | succ fuel ih =>
    intro left right hlr hrl hfuel hleft hright
    simp only [binarySearchGo]
    by_cases hlt : left < right
    · rw [if_pos hlt]
      by_cases klt : keys.getD (left + (right - left) / 2) 0 < target
      · rw [if_pos klt]
        refine ih (left + (right - left) / 2 + 1) right (by omega) hrl (by omega)
          (fun j hj => ?_) hright
        by_cases hjl : j < left
        · exact hleft j hjl
        · rcases Nat.lt_or_ge j (left + (right - left) / 2) with hjm | hjm
          · exact Nat.lt_of_le_of_lt (hsort j (left + (right - left) / 2) hjm (by omega)) klt
          · have : j = left + (right - left) / 2 := by omega
            exact this ▸ klt
      · rw [if_neg klt]
        by_cases tlt : target < keys.getD (left + (right - left) / 2) 0
        · rw [if_pos tlt]
          refine ih left (left + (right - left) / 2) (by omega) (by omega) (by omega)
            hleft (fun j hmj hjl => ?_)
          rcases Nat.eq_or_lt_of_le hmj with rfl | hmj
          · exact tlt
          · exact Nat.lt_of_lt_of_le tlt (hsort _ j hmj hjl)
        · rw [if_neg tlt]
          exact ⟨by omega, by omega⟩
    · rw [if_neg hlt]
      exact ⟨by omega, hleft, fun j hj hjl => hright j (by omega) hjl⟩

theorem fragsOk_getD (fragments : List (Nat × Frag)) (hwf : FragsOk fragments)
    (i j : Nat) (hij : i < j) (hj : j < fragments.length) :
    (fragments.getD i (0, [])).1 + (fragments.getD i (0, [])).2.length
      ≤ (fragments.getD j (0, [])).1 := by
  have hi : i < fragments.length := by omega
  rw [getD_lt_length _ _ i hi, getD_lt_length _ _ j hj]
  have := List.pairwise_iff_getElem.mp hwf i j hi hj hij
  simpa using this

theorem keys_getD (fragments : List (Nat × Frag)) (j : Nat)
    (hj : j < fragments.length) :
    (fragments.map Prod.fst).getD j 0 = (fragments.getD j (0, [])).1 := by
  have hj' : j < (fragments.map Prod.fst).length := by simpa using hj
  rw [getD_lt_length _ _ j hj', getD_lt_length _ _ j hj]
  simp

theorem keys_sorted (fragments : List (Nat × Frag)) (hwf : FragsOk fragments) :
    ∀ i j, i < j → j < (fragments.map Prod.fst).length →
      (fragments.map Prod.fst).getD i 0 ≤ (fragments.map Prod.fst).getD j 0 := by
  intro i j hij hj
  rw [List.length_map] at hj
  rw [keys_getD _ i (by omega), keys_getD _ j hj]
  have := fragsOk_getD fragments hwf i j hij hj
  omega

theorem get_index_bsout (m : CompositeMemory) (address : Nat)
    (hwf : FragsOk m.fragments) :
    BSOut (m.fragments.map Prod.fst) address
      (binarySearchByBase m.fragments address) := by
  unfold binarySearchByBase
  refine bsGo_spec _ address (keys_sorted _ hwf) m.fragments.length 0
    m.fragments.length (by omega) (by rw [List.length_map]) (by omega)
    (fun j hj => absurd hj (by omega))
    (fun j hj hjl => by
      rw [List.length_map] at hjl
      exact absurd hjl (by omega))

theorem get_index_some (m : CompositeMemory) (address : Nat)
    (hwf : FragsOk m.fragments) (i : Nat)
    (h : m.get_index address = some i) :
    i < m.fragments.length ∧ (m.fragments.getD i (0, [])).1 ≤ address := by
  have hbs := get_index_bsout m address hwf
  unfold CompositeMemory.get_index at h
  cases hb : binarySearchByBase m.fragments address with
  | inl j =>
    rw [hb] at h hbs
    dsimp only at h
    simp only [BSOut] at hbs
    obtain rfl : j = i := by injection h
    obtain ⟨hjl, hje⟩ := hbs
    rw [List.length_map] at hjl
    rw [keys_getD _ j hjl] at hje
    exact ⟨hjl, le_of_eq hje⟩
  | inr j =>
    rw [hb] at h hbs
    dsimp only at h
    simp only [BSOut] at hbs
    obtain ⟨hjn, hlow, hhigh⟩ := hbs
    rw [List.length_map] at hjn
    by_cases hj0 : j > 0
    · rw [if_pos hj0] at h
      obtain rfl : j - 1 = i := by injection h
      have hlt : j - 1 < m.fragments.length := by omega
      have := hlow (j - 1) (by omega)
      rw [keys_getD _ (j - 1) hlt] at this
      exact ⟨hlt, by omega⟩
    · rw [if_neg hj0] at h
      simp at h

theorem get_index_none (m : CompositeMemory) (address : Nat)
    (hwf : FragsOk m.fragments) (h : m.get_index address = none) :
    ∀ j, j < m.fragments.length → address < (m.fragments.getD j (0, [])).1 := by
  have hbs := get_index_bsout m address hwf
  unfold CompositeMemory.get_index at h
  cases hb : binarySearchByBase m.fragments address with
  | inl j =>
    rw [hb] at h
    dsimp only at h
    simp at h
  | inr j =>
    rw [hb] at h hbs
    dsimp only at h
    simp only [BSOut] at hbs
    obtain ⟨hjn, hlow, hhigh⟩ := hbs
    by_cases hj0 : j > 0
    · rw [if_pos hj0] at h
      simp at h
    · intro j2 hj2
      have := hhigh j2 (by omega) (by rw [List.length_map]; exact hj2)
      rw [keys_getD _ j2 hj2] at this
      exact this

theorem get_index_inside (m : CompositeMemory) (address : Nat)
    (hwf : FragsOk m.fragments)
    (hpos : ∀ pq ∈ m.fragments, pq.2 ≠ ([] : Frag))
    (i : Nat) (hi : i < m.fragments.length)
    (h1 : (m.fragments.getD i (0, [])).1 ≤ address)
    (h2 : address < (m.fragments.getD i (0, [])).1
        + (m.fragments.getD i (0, [])).2.length) :
    m.get_index address = some i := by
  have hposD : ∀ j, j < m.fragments.length →
      0 < (m.fragments.getD j (0, [])).2.length := by
    intro j hj
    have hmem : m.fragments.getD j (0, []) ∈ m.fragments := by
      rw [getD_lt_length _ _ j hj]
      exact List.get_mem _ _ _
    exact List.length_pos.mpr (hpos _ hmem)
  have hbs := get_index_bsout m address hwf
  unfold CompositeMemory.get_index
  cases hb : binarySearchByBase m.fragments address with
  | inl j =>
    rw [hb] at hbs
    dsimp only
    simp only [BSOut] at hbs
    obtain ⟨hjl, hje⟩ := hbs
    rw [List.length_map] at hjl
    rw [keys_getD _ j hjl] at hje
    have hij : j = i := by
      rcases Nat.lt_trichotomy j i with hlt | heq | hgt
      · have hord := fragsOk_getD m.fragments hwf j i hlt hi
        have := hposD j hjl
        omega
      · exact heq
      · have hord := fragsOk_getD m.fragments hwf i j hgt hjl
        omega
    rw [hij]
  | inr j =>
    rw [hb] at hbs
    dsimp only
    simp only [BSOut] at hbs
    obtain ⟨hjn, hlow, hhigh⟩ := hbs
    rw [List.length_map] at hjn
    have hij : i < j := by
      by_contra hcon
      have := hhigh i (by omega) (by rw [List.length_map]; exact hi)
      rw [keys_getD _ i hi] at this
      omega
    have hj0 : j > 0 := by omega
    rw [if_pos hj0]
    have heq : j - 1 = i := by
      by_contra hne
      have hlt : i < j - 1 := by omega
      have hjm : j - 1 < m.fragments.length := by omega
      have := hlow (j - 1) (by omega)
      rw [keys_getD _ (j - 1) hjm] at this
      have hord := fragsOk_getD m.fragments hwf i (j - 1) hlt hjm
      omega
    rw [heq]

theorem get_fragment_at_index (m : CompositeMemory) (address i : Nat)
    (hidx : m.get_index address = some i) (hi : i < m.fragments.length) :
    m.get_fragment address
      = some ((m.fragments.getD i (0, [])).2,
              address - (m.fragments.getD i (0, [])).1) := by
  unfold CompositeMemory.get_fragment
  rw [hidx]
  dsimp only
  rw [if_neg (by omega)]

theorem get_fragment_none (m : CompositeMemory) (address : Nat)
    (hidx : m.get_index address = none) :
    m.get_fragment address = none := by
  unfold CompositeMemory.get_fragment
  rw [hidx]

theorem get_fragment_inside (m : CompositeMemory)
    (hwf : FragsOk m.fragments)
    (hpos : ∀ pq ∈ m.fragments, pq.2 ≠ ([] : Frag))
    (base : Nat) (frag : Frag) (address : Nat)
    (hmem : (base, frag) ∈ m.fragments)
    (h1 : base ≤ address) (h2 : address < base + frag.length) :
    m.get_fragment address = some (frag, address - base) := by
  obtain ⟨i, hi, hig⟩ := List.getElem_of_mem hmem
  have hgd : m.fragments.getD i (0, []) = (base, frag) := by
    rw [getD_lt_length _ _ i hi]
    simpa using hig
  have hidx := get_index_inside m address hwf hpos i hi
    (by rw [hgd]; exact h1) (by rw [hgd]; dsimp only; omega)
  rw [get_fragment_at_index m address i hidx hi, hgd]

/-! ## C3 / C10: address resolution -/

/-- **C3** (amended: fragments of positive length).  For every composite
built by successfully mounting fragments of positive length in any order:
an address inside a mounted fragment's range `[base, base + length)`
resolves — through the binary search for the greatest base `≤ address` —
to exactly that fragment at local offset `address - base`, and
`check_range`/`borrow_slice` delegate to it; an address before the first
fragment or in a gap not covered by any fragment's own length fails as
out-of-range for every access of positive length. -/
theorem c3_resolution (ops : List (Nat × String × Frag)) (m : CompositeMemory)
    (hbuild : mountedFrom ops m)
    (hne : ∀ op ∈ ops, op.2.2 ≠ ([] : Frag)) :
    (∀ base frag address, (base, frag) ∈ m.fragments →
       base ≤ address → address < base + frag.length →
       m.get_fragment address = some (frag, address - base)
       ∧ (∀ l, m.check_range address l = memCheckRange frag (address - base) l
            ∧ m.borrow_slice address l = memBorrowSlice frag (address - base) l))
    ∧ (∀ address, (∀ base frag, (base, frag) ∈ m.fragments →
          ¬(base ≤ address ∧ address < base + frag.length)) →
       ∀ l, 1 ≤ l →
         m.check_range address l = false
         ∧ m.borrow_slice address l = Except.error ()) := by
  have hwf := mountedFrom_fragsOk ops m hbuild
  have hpos : ∀ pq ∈ m.fragments, pq.2 ≠ ([] : Frag) := by
    intro pq hpq
    rcases mount_all_mem ops CompositeMemory.new m hbuild pq hpq with h0 | ⟨op, hop, rfl⟩
    · simp [CompositeMemory.new] at h0
    · exact hne op hop
  constructor
  · intro base frag address hmemb hb1 hb2
    have hgf := get_fragment_inside m hwf hpos base frag address hmemb hb1 hb2
    refine ⟨hgf, fun l => ⟨?_, ?_⟩⟩
    · unfold CompositeMemory.check_range
      rw [hgf]
    · unfold CompositeMemory.borrow_slice
      rw [hgf]
  · intro address hnone l hl
    cases hidx : m.get_index address with
    | none =>
      have hgf := get_fragment_none m address hidx
      constructor
      · unfold CompositeMemory.check_range
        rw [hgf]
      · unfold CompositeMemory.borrow_slice
        rw [hgf]
    | some i =>
      obtain ⟨hi, hbase⟩ := get_index_some m address hwf i hidx
      have hgf := get_fragment_at_index m address i hidx hi
      have hmem2 : m.fragments.getD i (0, []) ∈ m.fragments := by
        rw [getD_lt_length _ _ i hi]
        exact List.get_mem _ _ _
      have hnc := hnone (m.fragments.getD i (0, [])).1
        (m.fragments.getD i (0, [])).2 (by simpa using hmem2)
      have hout : ¬ address < (m.fragments.getD i (0, [])).1
          + (m.fragments.getD i (0, [])).2.length := fun hc => hnc ⟨hbase, hc⟩
      constructor
      · unfold CompositeMemory.check_range
        rw [hgf]
        dsimp only
        simp only [memCheckRange, decide_eq_false_iff_not]
        omega
      · unfold CompositeMemory.borrow_slice
        rw [hgf]
        dsimp only
        unfold memBorrowSlice
        rw [if_neg (by omega)]

/-- **C3** (counterexample to the claim as stated).  Zero-length fragments
defeat the claim: mounting `[1]` at 0 under `"f0"`, `[7]` at 5 under
`"f2"`, and the empty fragment at 5 under `"f1"` succeeds (all ranges are
pairwise non-overlapping — the empty range `[5, 5)` intersects nothing),
and places the empty fragment at position 1, before `(5, [7])`.  The
binary search for address 5 then lands on the empty fragment, so
`check_range 5 1` is `false` and `borrow_slice 5 1` fails even though
address 5 lies inside the mounted range `[5, 6)` of fragment `"f2"`. -/
theorem c3_counterexample :
    mount_all [(0, "f0", [1]), (5, "f2", [7]), (5, "f1", [])] CompositeMemory.new
      = some ⟨[(0, [1]), (5, []), (5, [7])], [("f1", 1), ("f2", 1), ("f0", 0)]⟩
    ∧ (5, [7]) ∈ [(0, ([1] : Frag)), (5, []), (5, [7])]
    ∧ (CompositeMemory.mk [(0, [1]), (5, []), (5, [7])]
        [("f1", 1), ("f2", 1), ("f0", 0)]).check_range 5 1 = false
    ∧ (CompositeMemory.mk [(0, [1]), (5, []), (5, [7])]
        [("f1", 1), ("f2", 1), ("f0", 0)]).get_fragment 5 = some ([], 0)
    ∧ (CompositeMemory.mk [(0, [1]), (5, []), (5, [7])]
        [("f1", 1), ("f2", 1), ("f0", 0)]).borrow_slice 5 1 = Except.error () :=
  ⟨by decide, by decide, by decide, by decide, rfl⟩

theorem c3_resolution_witness :
    (CompositeMemory.mk [(0, [10, 11, 12, 13]), (8, [20, 21])]
        [("ram", 1), ("rom", 0)]).get_fragment 9 = some ([20, 21], 1)
    ∧ (CompositeMemory.mk [(0, [10, 11, 12, 13]), (8, [20, 21])]
        [("ram", 1), ("rom", 0)]).check_range 5 1 = false := by
  have h := c3_resolution [(0, "rom", [10, 11, 12, 13]), (8, "ram", [20, 21])]
    (CompositeMemory.mk [(0, [10, 11, 12, 13]), (8, [20, 21])]
      [("ram", 1), ("rom", 0)])
    (by rfl) (by decide)
  refine ⟨(h.1 8 [20, 21] 9 (by decide) (by decide) (by decide)).1,
         (h.2 5 ?_ 1 (by decide)).1⟩
  intro base frag hmem
  simp only [List.mem_cons, List.not_mem_nil, or_false, Prod.mk.injEq] at hmem
  rcases hmem with ⟨rfl, rfl⟩ | ⟨rfl, rfl⟩
  · decide
  · decide

/-- **C10**.  A `CompositeMemory` access never spans fragments: resolution
consults only the fragment the binary search selects for the start
address, so a range that starts inside one mounted fragment and extends
past its end fails as out-of-range — for `check_range` and `borrow_slice`
alike — even when the following fragment is mounted contiguously and every
byte of the range is covered by some fragment. -/
theorem c10_no_spanning (ops : List (Nat × String × Frag)) (m : CompositeMemory)
    (hbuild : mountedFrom ops m) (base : Nat) (frag : Frag) (address l : Nat)
    (hmem : (base, frag) ∈ m.fragments)
    (h1 : base ≤ address) (h2 : address < base + frag.length)
    (h3 : base + frag.length < address + l) :
    m.check_range address l = false
    ∧ m.borrow_slice address l = Except.error () := by
  have hwf := mountedFrom_fragsOk ops m hbuild
  have hl1 : 1 ≤ l := by omega
  cases hidx : m.get_index address with
  | none =>
    have hgf := get_fragment_none m address hidx
    constructor
    · unfold CompositeMemory.check_range
      rw [hgf]
    · unfold CompositeMemory.borrow_slice
      rw [hgf]
  | some i =>
    obtain ⟨hi, hbase⟩ := get_index_some m address hwf i hidx
    have hgf := get_fragment_at_index m address i hidx hi
    have hkey : ¬ (address - (m.fragments.getD i (0, [])).1 + l
        ≤ (m.fragments.getD i (0, [])).2.length) := by
      intro hc
      obtain ⟨i0, hi0, hig0⟩ := List.getElem_of_mem hmem
      have hgd0 : m.fragments.getD i0 (0, []) = (base, frag) := by
        rw [getD_lt_length _ _ i0 hi0]
        simpa using hig0
      have hcov : address + l ≤ (m.fragments.getD i (0, [])).1
          + (m.fragments.getD i (0, [])).2.length := by omega
      rcases Nat.lt_trichotomy i0 i with hlt | heq | hgt
      · have hord := fragsOk_getD m.fragments hwf i0 i hlt hi
        rw [hgd0] at hord
        dsimp only at hord
        omega
      · rw [heq] at hgd0
        rw [hgd0] at hcov
        dsimp only at hcov
        omega
      · have hord := fragsOk_getD m.fragments hwf i i0 hgt hi0
        rw [hgd0] at hord
        dsimp only at hord
        omega
    constructor
    · unfold CompositeMemory.check_range
      rw [hgf]
      dsimp only
      simp only [memCheckRange, decide_eq_false_iff_not]
      exact hkey
    · unfold CompositeMemory.borrow_slice
      rw [hgf]
      dsimp only
      unfold memBorrowSlice
      rw [if_neg hkey]

theorem c10_no_spanning_witness :
    (CompositeMemory.mk [(0, [1, 2, 3, 4]), (4, [5, 6, 7, 8])]
        [("hi", 1), ("lo", 0)]).check_range 2 4 = false
    ∧ (CompositeMemory.mk [(0, [1, 2, 3, 4]), (4, [5, 6, 7, 8])]
        [("hi", 1), ("lo", 0)]).borrow_slice 2 4 = Except.error ()
    ∧ (CompositeMemory.mk [(0, [1, 2, 3, 4]), (4, [5, 6, 7, 8])]
        [("hi", 1), ("lo", 0)]).length = 8 := by
  have h := c10_no_spanning [(0, "lo", [1, 2, 3, 4]), (4, "hi", [5, 6, 7, 8])]
    (CompositeMemory.mk [(0, [1, 2, 3, 4]), (4, [5, 6, 7, 8])]
      [("hi", 1), ("lo", 0)])
    (by rfl) 0 [1, 2, 3, 4] 2 4 (by decide) (by decide) (by decide) (by decide)
  exact ⟨h.1, h.2, by decide⟩

/-! ## Processor (`src/processor.rs`) -/

/-- Modelled from the spec: `constants::WORD_BYTES` (the constants module is
absent from `src/`); a word is 32 bits, i.e. 4 bytes. -/
def WORD_BYTES : Nat := 4

/-- `ExitCode` (processor.rs lines 23-43). -/
inductive ExitCode where
  | Halted
  | Unknown
  | Terminated
  | DivisionByZero
  | BadMemoryAccess
  | BadAlignment
  | BadJump
  | InvalidOpcode
  | BadProgramCounter
deriving DecidableEq, Repr

/-- `logic::TickResult` (the control-flow outcome of decode/execute). -/
inductive TickResult where
  | Next
  | Jump (target : Nat)
  | Stop (code : ExitCode)
deriving DecidableEq, Repr

/-- `Processor` (processor.rs lines 45-49): register file, program counter
and sticky state.  Registers are a list of 32-bit values; their count is
irrelevant to the claims proved here. -/
structure Processor where
  registers : List Nat
  program_counter : Nat
  state : Option ExitCode
deriving DecidableEq, Repr

/-- Modelled from the spec: `Endian::read_u32` of the `byteorder` crate at
offset `pc` — the fixed byte order is little-endian. -/
def read_word (instructions : List Nat) (pc : Nat) : Nat :=
  instructions.getD pc 0
    + 256 * (instructions.getD (pc + 1) 0
    + 256 * (instructions.getD (pc + 2) 0
    + 256 * instructions.getD (pc + 3) 0))

/-- Modelled from the spec: `logic::tick` (processor/logic.rs is absent
from `src/`).  The decode/execute unit reads and writes the register file
and the storage, and reports a `TickResult`; it is represented here as an
arbitrary function from registers, storage, instruction word and program
counter to the outcome together with the updated registers and storage.
The storage type `σ` is any `StorageMut` implementor. -/
def LogicFn (σ : Type) : Type :=
  List Nat → σ → Nat → Nat → TickResult × List Nat × σ

/-- `Processor::get_new_state` (processor.rs lines 76-116), returning the
new `Option ExitCode` together with the mutated processor (program counter
and registers) and storage.  `instructions.len() as u32` is modelled by
`% 2 ^ 32`, and `wrapping_add` by explicit `% 2 ^ 32`. -/
def Processor.get_new_state {σ : Type} (p : Processor) (logic : LogicFn σ)
    (instructions : List Nat) (storage : σ) :
    Option ExitCode × Processor × σ :=
  let instr_len := instructions.length % 2 ^ 32
  if p.program_counter + WORD_BYTES > instr_len then
    (some ExitCode.BadProgramCounter, p, storage)
  else
    let pc := p.program_counter
    let instruction := read_word instructions pc
    let res := logic p.registers storage instruction pc
    match res.1 with
    | TickResult.Next =>
      let new_pc := (pc + WORD_BYTES) % 2 ^ 32
      (none,
       { p with registers := res.2.1,
                program_counter := if new_pc < instr_len then new_pc else 0 },
       res.2.2)
    | TickResult.Jump new_pc =>
      if new_pc % WORD_BYTES ≠ 0 then
        (some ExitCode.BadAlignment, { p with registers := res.2.1 }, res.2.2)
      else if new_pc ≥ instr_len then
        (some ExitCode.BadJump, { p with registers := res.2.1 }, res.2.2)
      else
        (none, { p with registers := res.2.1, program_counter := new_pc }, res.2.2)
    | TickResult.Stop exit_code =>
      (some exit_code, { p with registers := res.2.1 }, res.2.2)

/-- `Processor::is_stopped` (processor.rs lines 64-66). -/
def Processor.is_stopped (p : Processor) : Bool :=
  p.state.isSome

/-- `Processor::tick` (processor.rs lines 68-74): when not stopped, run
`get_new_state` and store its result in `state`; always return `state`. -/
def Processor.tick {σ : Type} (p : Processor) (logic : LogicFn σ)
    (instructions : List Nat) (storage : σ) :
    Option ExitCode × Processor × σ :=
  if p.is_stopped then (p.state, p, storage)
  else
    match p.get_new_state logic instructions storage with
    | (new_state, p2, storage2) => (new_state, { p2 with state := new_state }, storage2)

/-! ## C5 - C8: tick semantics -/

/-- **C5**.  For every running processor, when the program counter plus one
word size exceeds the instruction stream length, `tick` stops with
`BadProgramCounter` before any fetch or execution — the conclusion holds
for an arbitrary decode/execute function `logic`, which is never consulted
— and registers, program counter and storage are left untouched.  The
first tick on an empty instruction stream is the witness instance. -/
theorem c5_bad_program_counter {σ : Type} (logic : LogicFn σ) (p : Processor)
    (instructions : List Nat) (storage : σ)
    (hrun : p.state = none)
    (hlen : instructions.length < 2 ^ 32)
    (hpc : instructions.length < p.program_counter + WORD_BYTES) :
    p.tick logic instructions storage
      = (some ExitCode.BadProgramCounter,
         { p with state := some ExitCode.BadProgramCounter }, storage) := by
  simp only [Processor.tick, Processor.is_stopped, hrun, Option.isSome_none,
    Bool.false_eq_true, if_false, Processor.get_new_state, Nat.mod_eq_of_lt hlen]
  rw [if_pos (by omega)]

theorem c5_bad_program_counter_witness :
    (Processor.mk [] 0 none).tick
      (fun r s _ _ => (TickResult.Stop ExitCode.Unknown, r, s))
      ([] : List Nat) ([] : List Nat)
      = (some ExitCode.BadProgramCounter,
         Processor.mk [] 0 (some ExitCode.BadProgramCounter), []) :=
  c5_bad_program_counter _ _ _ _ rfl (by decide) (by decide)

/-- **C6** (counterexample to the claim as stated).  On a one-instruction
stream (4 bytes) at program counter 0 with a `Next` outcome, the advanced
value `0 + WORD_BYTES = 4` equals — and so does not exceed — the stream
length 4, yet the source sets the program counter to 0 (`new_pc <
instr_len` fails at equality), not to the advanced value 4 that the claim,
read literally, demands. -/
theorem c6_wrap_counterexample :
    (Processor.mk [] 0 none).tick (fun r s _ _ => (TickResult.Next, r, s))
      [0, 0, 0, 0] ([] : List Nat)
      = (none, Processor.mk [] 0 none, [])
    ∧ ¬ (0 + WORD_BYTES > ([0, 0, 0, 0] : List Nat).length)
    ∧ (0 : Nat) ≠ 0 + WORD_BYTES := by
  refine ⟨by decide, by decide, by decide⟩

/-- **C6** (amended: the wrap to address 0 happens as soon as the advanced
program counter reaches — equals or exceeds — the instruction stream
length).  For every running processor whose instruction executes with the
`Next` outcome, no fault is reported, the processor stays running, and the
program counter advances by one word unless the advanced value reaches the
stream length, in which case it is set to 0. -/
theorem c6_next_advance {σ : Type} (logic : LogicFn σ) (p : Processor)
    (instructions : List Nat) (storage : σ) (regs2 : List Nat) (storage2 : σ)
    (hrun : p.state = none)
    (hlen : instructions.length < 2 ^ 32)
    (hpc : p.program_counter + WORD_BYTES ≤ instructions.length)
    (hlogic : logic p.registers storage (read_word instructions p.program_counter)
        p.program_counter = (TickResult.Next, regs2, storage2)) :
    p.tick logic instructions storage
      = (none,
         { p with registers := regs2,
                  program_counter :=
                    if p.program_counter + WORD_BYTES < instructions.length
                    then p.program_counter + WORD_BYTES else 0,
                  state := none },
         storage2) := by
  simp only [Processor.tick, Processor.is_stopped, hrun, Option.isSome_none,
    Bool.false_eq_true, if_false, Processor.get_new_state, Nat.mod_eq_of_lt hlen]
  rw [if_neg (by omega), hlogic]
  dsimp only
  rw [Nat.mod_eq_of_lt (by omega)]

theorem c6_next_advance_witness :
    (Processor.mk [] 0 none).tick (fun r s _ _ => (TickResult.Next, r, s))
      [0, 0, 0, 0, 0, 0, 0, 0] ([] : List Nat)
      = (none, Processor.mk [] 4 none, []) := by
  rw [c6_next_advance (fun r s _ _ => (TickResult.Next, r, s))
    (Processor.mk [] 0 none) [0, 0, 0, 0, 0, 0, 0, 0] [] [] []
    rfl (by decide) (by decide) rfl]
  decide

/-- **C7**.  For every running processor whose instruction yields a
`Jump target` outcome: a non-word-aligned target stops the processor with
`BadAlignment` — this check comes first, so it wins even when the target
is also out of bounds; an aligned target at or past the instruction
stream length stops it with `BadJump`; otherwise the program counter is
set to the target and the processor stays running. -/
theorem c7_jump {σ : Type} (logic : LogicFn σ) (p : Processor)
    (instructions : List Nat) (storage : σ) (target : Nat)
    (regs2 : List Nat) (storage2 : σ)
    (hrun : p.state = none)
    (hlen : instructions.length < 2 ^ 32)
    (hpc : p.program_counter + WORD_BYTES ≤ instructions.length)
    (hlogic : logic p.registers storage (read_word instructions p.program_counter)
        p.program_counter = (TickResult.Jump target, regs2, storage2)) :
    (target % WORD_BYTES ≠ 0 →
       p.tick logic instructions storage
         = (some ExitCode.BadAlignment,
            { p with registers := regs2, state := some ExitCode.BadAlignment },
            storage2))
    ∧ (target % WORD_BYTES = 0 → instructions.length ≤ target →
       p.tick logic instructions storage
         = (some ExitCode.BadJump,
            { p with registers := regs2, state := some ExitCode.BadJump },
            storage2))
    ∧ (target % WORD_BYTES = 0 → target < instructions.length →
       p.tick logic instructions storage
         = (none,
            { p with registers := regs2, program_counter := target, state := none },
            storage2)) := by
  refine ⟨fun ha => ?_, fun ha hb => ?_, fun ha hb => ?_⟩ <;>
    simp only [Processor.tick, Processor.is_stopped, hrun, Option.isSome_none,
      Bool.false_eq_true, if_false, Processor.get_new_state,
      Nat.mod_eq_of_lt hlen] <;>
    rw [if_neg (by omega), hlogic] <;>
    dsimp only
  · rw [if_pos ha]
  · rw [if_neg (by simpa using ha), if_pos (by omega)]
  · rw [if_neg (by simpa using ha), if_neg (by omega)]

theorem c7_jump_witness :
    (Processor.mk [] 0 none).tick (fun r s _ _ => (TickResult.Jump 9, r, s))
      [0, 0, 0, 0, 0, 0, 0, 0] ([] : List Nat)
      = (some ExitCode.BadAlignment,
         Processor.mk [] 0 (some ExitCode.BadAlignment), [])
    ∧ (Processor.mk [] 0 none).tick (fun r s _ _ => (TickResult.Jump 8, r, s))
      [0, 0, 0, 0, 0, 0, 0, 0] ([] : List Nat)
      = (some ExitCode.BadJump, Processor.mk [] 0 (some ExitCode.BadJump), [])
    ∧ (Processor.mk [] 0 none).tick (fun r s _ _ => (TickResult.Jump 4, r, s))
      [0, 0, 0, 0, 0, 0, 0, 0] ([] : List Nat)
      = (none, Processor.mk [] 4 none, []) := by
  refine ⟨?_, ?_, ?_⟩
  · exact (c7_jump (fun r s _ _ => (TickResult.Jump 9, r, s))
      (Processor.mk [] 0 none) [0, 0, 0, 0, 0, 0, 0, 0] [] 9 [] []
      rfl (by decide) (by decide) rfl).1 (by decide)
  · exact (c7_jump (fun r s _ _ => (TickResult.Jump 8, r, s))
      (Processor.mk [] 0 none) [0, 0, 0, 0, 0, 0, 0, 0] [] 8 [] []
      rfl (by decide) (by decide) rfl).2.1 (by decide) (by decide)
  · exact (c7_jump (fun r s _ _ => (TickResult.Jump 4, r, s))
      (Processor.mk [] 0 none) [0, 0, 0, 0, 0, 0, 0, 0] [] 4 [] []
      rfl (by decide) (by decide) rfl).2.2 (by decide) (by decide)

/-- **C8**.  Once an exit code is set, `tick` is a pure no-op that returns
the same code: for any decode/execute function, instruction stream and
storage, the processor (registers, program counter, state) and the storage
are returned exactly unchanged, and the stored exit code is reproduced. -/
theorem c8_sticky_exit {σ : Type} (logic : LogicFn σ) (p : Processor)
    (instructions : List Nat) (storage : σ) (code : ExitCode)
    (hstop : p.state = some code) :
    p.tick logic instructions storage = (some code, p, storage) := by
  unfold Processor.tick Processor.is_stopped
  rw [hstop]
  simp

theorem c8_sticky_exit_witness :
    (Processor.mk [3] 8 (some ExitCode.Halted)).tick
      (fun _ _ _ _ => (TickResult.Stop ExitCode.Unknown, [99], [77]))
      [0, 0, 0, 0, 0, 0, 0, 0, 0, 0, 0, 0] ([9] : List Nat)
      = (some ExitCode.Halted, Processor.mk [3] 8 (some ExitCode.Halted), [9]) :=
  c8_sticky_exit _ _ _ _ ExitCode.Halted rfl

/-! ## I/O memory (`src/memory/io.rs`) -/

/-- Modelled from the spec: the little-endian byte decomposition used by
the derived `write` helper of the Storage Contract (`lib.rs`, absent from
`src/`): the low-order `size` bytes of `value`, least significant first
(a narrow store truncates a wider value). -/
def le_bytes (size value : Nat) : List Nat :=
  (List.range size).map (fun i => value / 256 ^ i % 256)

/-- Writes the given bytes into the buffer starting at `address`,
one position at a time. -/
def set_bytes (memory : List Nat) (address : Nat) : List Nat → List Nat
  | [] => memory
  | b :: rest => set_bytes (memory.set address b) (address + 1) rest

/-- Modelled from the spec: `StorageMut::write` of the flat byte-buffer
implementation (`lib.rs`, absent from `src/`): writes the low-order `size`
bytes of `value` at `address` in little-endian order after an in-bounds
check, failing with the out-of-range error otherwise. -/
def mem_write (memory : List Nat) (address size value : Nat) :
    Except Unit (List Nat) :=
  if address + size ≤ memory.length then
    Except.ok (set_bytes memory address (le_bytes size value))
  else Except.error ()

/-- `StorageMut::write` for `IOMemory` (io.rs lines 37-45).  The handler's
`can_write` is the veto gate; `on_write` is side-effecting and returns
nothing, so its invocation is represented by the second component of the
result: `some (buffer, address, size)` records the arguments it receives —
with the buffer in the state `on_write` observes it (`&self.memory`, read
after the mutation) — and `none` means it is not invoked. -/
def io_write (can_write : List Nat → Nat → Nat → Bool) (memory : List Nat)
    (address size value : Nat) :
    Except Unit (List Nat × Option (List Nat × Nat × Nat)) :=
  if can_write memory address size then
    match mem_write memory address size value with
    | Except.error e => Except.error e
    | Except.ok memory2 => Except.ok (memory2, some (memory2, address, size))
  else Except.ok (memory, none)

/-- **C9**.  A vetoed I/O write (`can_write` false) is a complete no-op that
still reports success: the buffer is returned byte-for-byte unchanged and
`on_write` is not invoked.  A permitted, in-range write mutates the buffer
first and then invokes `on_write` on the already-mutated buffer, so the
new value is visible to the callback. -/
theorem c9_io_write (can_write : List Nat → Nat → Nat → Bool) (memory : List Nat)
    (address size value : Nat) :
    (can_write memory address size = false →
       io_write can_write memory address size value = Except.ok (memory, none))
    ∧ (can_write memory address size = true → address + size ≤ memory.length →
       io_write can_write memory address size value
         = Except.ok (set_bytes memory address (le_bytes size value),
             some (set_bytes memory address (le_bytes size value), address, size))) := by
  constructor
  · intro h
    unfold io_write
    rw [h]
    simp
  · intro h hrange
    unfold io_write
    rw [h]
    simp only [if_true]
    unfold mem_write
    rw [if_pos hrange]

theorem c9_io_write_witness :
    io_write (fun _ _ _ => false) [1, 2, 3, 4] 0 2 999
      = Except.ok ([1, 2, 3, 4], none)
    ∧ io_write (fun _ _ _ => true) [1, 2, 3, 4] 0 2 999
      = Except.ok ([231, 3, 3, 4], some ([231, 3, 3, 4], 0, 2)) := by
  constructor
  · exact (c9_io_write (fun _ _ _ => false) [1, 2, 3, 4] 0 2 999).1 rfl
  · rw [(c9_io_write (fun _ _ _ => true) [1, 2, 3, 4] 0 2 999).2 rfl (by decide)]
    rfl
